import Mathlib

/-!
Verification of the png2gba converter (src/png2gba.c) against its
specification.  The C program is shallowly embedded: machine integers are
modelled as `Nat` (with explicit `% 2^w` where a C narrowing occurs) or as
`Int` where the C code uses signed `int` arithmetic; the function-local
`static` cursor of `next_byte` becomes an explicit `Cursor` state; the
fallible palette insertion returns `Except`.
-/

namespace Png2gba

/-- The 24-bit → 15-bit color quantization, from `png2gba` lines 261-264:
`color = (blue >> 3) << 10; color += (green >> 3) << 5; color += (red >> 3)`.
The result is stored in a C `unsigned short`, hence the `% 65536`. -/
def quantize (red green blue : Nat) : Nat :=
  (((blue >>> 3) <<< 10) + ((green >>> 3) <<< 5) + (red >>> 3)) % 65536

/-- `struct Palette` (lines 36-40).  `colors` models the
`unsigned short colors[PALETTE_MAX]` array as a total function (the array is
`memset` to zero before use, and only indices written by `insert_palette`
ever change); `used` and `max` are the values held by the two
`unsigned char` fields. -/
structure Palette where
  colors : Nat → Nat
  used : Nat
  max : Nat

/-- Palette construction in `main` lines 430-432:
`memset(&palette, 0, sizeof(palette)); palette.max = args.palette;`.
Storing an `int` into the `unsigned char` field `max` truncates mod 256
(so the requested 256 becomes 0). -/
def freshPalette (requested : Nat) : Palette :=
  ⟨fun _ => 0, 0, requested % 256⟩

/-- The scan loop of `insert_palette` (lines 132-138): return the first
index `i < used` with `colors[i] == color`.  The recursion scans lower
indices with priority, matching the C loop's first-match order. -/
def scanPalette (colors : Nat → Nat) (color : Nat) : Nat → Option Nat
  | 0 => none
  | n + 1 =>
    match scanPalette colors color n with
    | some i => some i
    | none => if colors n = color then some n else none

/-- `insert_palette` (lines 129-152).  The capacity check
`palette->used >= (palette->max - 1)` promotes both `unsigned char`
operands to `int`, hence the `Int` comparison; when `max = 0` (a truncated
256) the right-hand side is `-1` and the check always fires.
`palette->used++` wraps mod 256 (`unsigned char`); the error path models
the `exit(-1)`. -/
def insert_palette (color : Nat) (p : Palette) : Except Unit (Nat × Palette) :=
  match scanPalette p.colors color p.used with
  | some i => .ok (i, p)
  | none =>
    if (p.used : Int) ≥ (p.max : Int) - 1 then .error ()
    else
      let used1 := (p.used + 1) % 256
      .ok (used1 - 1, ⟨fun j => if j = used1 - 1 then color else p.colors j, used1, p.max⟩)

/-- The value of one hexadecimal digit character, as computed by
`strtol(..., 16)` on the 2-character chunks of the colorkey in
`hex24_to_15` (lines 234-236). -/
def hexDigitVal (ch : Char) : Nat :=
  if '0' ≤ ch ∧ ch ≤ '9' then ch.toNat - 48
  else if 'a' ≤ ch ∧ ch ≤ 'f' then ch.toNat - 87
  else if 'A' ≤ ch ∧ ch ≤ 'F' then ch.toNat - 55
  else 0

/-- `strtol` on a 2-hex-digit string. -/
def hexPairVal (hi lo : Char) : Nat := 16 * hexDigitVal hi + hexDigitVal lo

/-- `hex24_to_15` (lines 217-244): skip the `#`, read three 2-digit hex
components, pack them exactly as the quantizer does.  The result is a C
`unsigned short`, hence `% 65536`.  Inputs shorter than 7 characters read
out of bounds in C and are outside the model (mapped to 0). -/
def hex24_to_15 : List Char → Nat
  | _ :: r1 :: r0 :: g1 :: g0 :: b1 :: b0 :: _ =>
    let r := hexPairVal r1 r0
    let g := hexPairVal g1 g0
    let b := hexPairVal b1 b0
    (((b >>> 3) <<< 10) + ((g >>> 3) <<< 5) + (r >>> 3)) % 65536
  | _ => 0

/-- The four `static int` variables of `next_byte` (lines 158-163), made an
explicit cursor state.  C `int` is modelled as `Int` (the tiled stepping
subtracts, and out-of-range dimensions can drive the values anywhere). -/
structure Cursor where
  r : Int
  c : Int
  tr : Int
  tc : Int
deriving DecidableEq

/-- The initial values of the static variables: all zero. -/
def initCursor : Cursor := ⟨0, 0, 0, 0⟩

/-- One call to `next_byte` (lines 156-215).  Returns `none` when
`r == image->height`; otherwise returns the position `(r, c)` whose pixel
the C function returns a pointer to, together with the updated cursor.
The tiled branch composes the C mutations
`c++; tc++; if (tc>=8) { r++; tr++; c-=8; tc=0; if (tr>=8) { r-=8; tr=0;
c+=8; } if (c>=width) { tc=0; tr=0; c=0; r+=8; } }` literally. -/
def next_byte (width height : Int) (tileize : Bool) (s : Cursor) :
    Option ((Int × Int) × Cursor) :=
  if s.r = height then none
  else
    let pos := (s.r, s.c)
    if !tileize then
      if s.c + 1 ≥ width then some (pos, ⟨s.r + 1, 0, s.tr, s.tc⟩)
      else some (pos, ⟨s.r, s.c + 1, s.tr, s.tc⟩)
    else
      if s.tc + 1 ≥ 8 then
        if s.tr + 1 ≥ 8 then
          if s.c + 1 - 8 + 8 ≥ width then some (pos, ⟨s.r + 1 - 8 + 8, 0, 0, 0⟩)
          else some (pos, ⟨s.r + 1 - 8, s.c + 1 - 8 + 8, 0, 0⟩)
        else
          if s.c + 1 - 8 ≥ width then some (pos, ⟨s.r + 1 + 8, 0, 0, 0⟩)
          else some (pos, ⟨s.r + 1, s.c + 1 - 8, s.tr + 1, 0⟩)
      else some (pos, ⟨s.r, s.c + 1, s.tr, s.tc + 1⟩)

/-- The pixel positions produced by repeatedly calling `next_byte` (the
`while ((ptr = next_byte(image, tileize)))` loop of `png2gba`, line 256),
with explicit fuel; the loop stops when `next_byte` returns `none`. -/
def traverse (width height : Int) (tileize : Bool) : Nat → Cursor → List (Int × Int)
  | 0, _ => []
  | fuel + 1, s =>
    match next_byte width height tileize s with
    | none => []
    | some (pos, s1) => pos :: traverse width height tileize fuel s1

/-- `[a, a+1, ..., a+n-1]` over `Int`. -/
def intRange (a : Int) : Nat → List Int
  | 0 => []
  | n + 1 => a :: intRange (a + 1) n

/-- Row-major order of a `W × H` image, as the spec describes linear mode:
row 0 left to right, then row 1, ... -/
def rowMajor (W H : Nat) : List (Int × Int) :=
  (intRange 0 H).flatMap fun r => (intRange 0 W).map fun c => (r, c)

/-- 8×8 tile-major order of an `8w × 8h` image, as the spec describes tiled
mode: tiles left-to-right across the top tile-row, then the next tile-row,
and row-major inside each tile. -/
def tileOrder (w h : Nat) : List (Int × Int) :=
  (intRange 0 h).flatMap fun tR =>
    (intRange 0 w).flatMap fun tC =>
      (intRange 0 8).flatMap fun pr =>
        (intRange 0 8).map fun pc => (8 * tR + pr, 8 * tC + pc)

/-- The sequence of palette indices produced by inserting a list of
quantized colors in order (the palette-mode arm of the `png2gba` pixel
loop, lines 271-278, with the palette state threaded through as the spec's
corrected data flow prescribes). -/
def indicesOf (p : Palette) : List Nat → Except Unit (List Nat × Palette)
  | [] => .ok ([], p)
  | c :: rest =>
    match insert_palette c p with
    | .error e => .error e
    | .ok (i, p1) =>
      match indicesOf p1 rest with
      | .error e => .error e
      | .ok (is, pF) => .ok (i :: is, pF)

/-! ### Facts about the palette scan loop -/

theorem scanPalette_none_of_notmem (colors : Nat → Nat) (c : Nat) :
    ∀ n, (∀ j, j < n → colors j ≠ c) → scanPalette colors c n = none := by
  intro n
  induction n with
  | zero => intro _; rfl
  | succ m ih =>
    intro h
    unfold scanPalette
    rw [ih (fun j hj => h j (Nat.lt_succ_of_lt hj))]
    simp [h m (Nat.lt_succ_self m)]

theorem scanPalette_none_imp (colors : Nat → Nat) (c : Nat) :
    ∀ n, scanPalette colors c n = none → ∀ j, j < n → colors j ≠ c := by
  intro n
  induction n with
  | zero => intro _ j hj; omega
  | succ m ih =>
    intro h j hj
    unfold scanPalette at h
    cases hrec : scanPalette colors c m with
    | some i => rw [hrec] at h; exact absurd h (by simp)
    | none =>
      rw [hrec] at h
      by_cases hm : colors m = c
      · rw [if_pos hm] at h; exact absurd h (by simp)
      · rcases Nat.lt_succ_iff_lt_or_eq.mp hj with hlt | rfl
        · exact ih hrec j hlt
        · exact hm

theorem scanPalette_some_spec (colors : Nat → Nat) (c : Nat) :
    ∀ n i, scanPalette colors c n = some i →
      i < n ∧ colors i = c ∧ ∀ k, k < i → colors k ≠ c := by
  intro n
  induction n with
  | zero => intro i h; exact absurd h (by simp [scanPalette])
  | succ m ih =>
    intro i h
    unfold scanPalette at h
    cases hrec : scanPalette colors c m with
    | some j =>
      rw [hrec] at h
      simp only [Option.some.injEq] at h
      subst h
      obtain ⟨h1, h2, h3⟩ := ih j hrec
      exact ⟨Nat.lt_succ_of_lt h1, h2, h3⟩
    | none =>
      rw [hrec] at h
      by_cases hm : colors m = c
      · rw [if_pos hm] at h
        simp only [Option.some.injEq] at h
        subst h
        exact ⟨Nat.lt_succ_self m, hm, scanPalette_none_imp colors c m hrec⟩
      · rw [if_neg hm] at h; exact absurd h (by simp)

theorem scanPalette_finds_least (colors : Nat → Nat) (c : Nat) :
    ∀ n i, i < n → colors i = c → (∀ k, k < i → colors k ≠ c) →
      scanPalette colors c n = some i := by
  intro n
  induction n with
  | zero => intro i h; omega
  | succ m ih =>
    intro i hi hc hleast
    unfold scanPalette
    rcases Nat.lt_succ_iff_lt_or_eq.mp hi with hlt | rfl
    · rw [ih i hlt hc hleast]
    · rw [scanPalette_none_of_notmem colors c i hleast]
      simp [hc]

/-! ### Facts about palette insertion -/

/-- Anatomy of a successful insertion.  The `p.max < 256` hypothesis states
that the `max` field holds a byte value, which is true of every palette the
program builds (the field is a C `unsigned char`). -/
theorem insert_palette_ok_spec (c : Nat) (p : Palette) (i : Nat) (p' : Palette)
    (hmax : p.max < 256) (h : insert_palette c p = .ok (i, p')) :
    p'.colors i = c ∧ i < p'.used ∧ p.used ≤ p'.used ∧ p'.used ≤ p.used + 1 ∧
    p'.max = p.max ∧ (∀ j, j < p.used → p'.colors j = p.colors j) ∧
    (∀ j, p'.used ≤ j → p'.colors j = p.colors j) ∧
    (∀ k, k < i → p'.colors k ≠ c) := by
  unfold insert_palette at h
  cases hscan : scanPalette p.colors c p.used with
  | some j =>
    rw [hscan] at h
    simp only [Except.ok.injEq, Prod.mk.injEq] at h
    obtain ⟨rfl, rfl⟩ := h
    obtain ⟨h1, h2, h3⟩ := scanPalette_some_spec p.colors c p.used j hscan
    exact ⟨h2, h1, Nat.le_refl _, Nat.le_succ _, rfl, fun _ _ => rfl, fun _ _ => rfl, h3⟩
  | none =>
    rw [hscan] at h
    by_cases hguard : (p.used : Int) ≥ (p.max : Int) - 1
    · rw [if_pos hguard] at h; exact absurd h (by simp)
    · rw [if_neg hguard] at h
      have hu : (p.used + 1) % 256 = p.used + 1 := by
        apply Nat.mod_eq_of_lt; omega
      simp only [hu, Except.ok.injEq, Prod.mk.injEq, Nat.add_sub_cancel] at h
      obtain ⟨rfl, rfl⟩ := h
      refine ⟨by simp, by simp, by simp, by simp, rfl, ?_, ?_, ?_⟩
      · intro j hj
        have : j ≠ p.used := by omega
        simp [this]
      · intro j hj
        have hj2 : p.used + 1 ≤ j := hj
        have : j ≠ p.used := by omega
        simp [this]
      · intro k hk
        have hk2 : k < p.used := hk
        have hkne : k ≠ p.used := by omega
        simp only [if_neg hkne]
        exact scanPalette_none_imp p.colors c p.used hscan k hk

/-- C4: with a palette whose capacity field was constructed from the value
16, a color not already present is appended (at index `used`) exactly when
the current size is below `max - 1 = 15`, and insertion fails with the
overflow error exactly when the size is at least 15.  With the value 256,
however, the `unsigned char` capacity field truncates to 0 and the check
`used >= max - 1` compares against `-1`, so even the very first insertion
into the empty palette fails. -/
theorem palette_capacity_check (p : Palette) (c : Nat) (hmax : p.max = 16)
    (hfresh : ∀ j, j < p.used → p.colors j ≠ c) :
    ((p.used < 15 → ∃ p', insert_palette c p = .ok (p.used, p') ∧
        p'.used = p.used + 1 ∧ p'.colors p.used = c) ∧
     (15 ≤ p.used → insert_palette c p = .error ())) ∧
    insert_palette 31775 (freshPalette 256) = .error () := by
  refine ⟨⟨?_, ?_⟩, rfl⟩
  · intro hlt
    unfold insert_palette
    rw [scanPalette_none_of_notmem p.colors c p.used hfresh]
    have hguard : ¬ ((p.used : Int) ≥ (p.max : Int) - 1) := by
      rw [hmax]; push_cast; omega
    rw [if_neg hguard]
    have hu : (p.used + 1) % 256 = p.used + 1 := by
      apply Nat.mod_eq_of_lt; omega
    simp only [hu, Nat.add_sub_cancel]
    exact ⟨_, rfl, rfl, by simp⟩
  · intro hge
    unfold insert_palette
    rw [scanPalette_none_of_notmem p.colors c p.used hfresh]
    have hguard : (p.used : Int) ≥ (p.max : Int) - 1 := by
      rw [hmax]; push_cast; omega
    rw [if_pos hguard]

/-- Witness for C4: the empty 16-capacity palette accepts a first color at
index 0, and a full one (15 entries) rejects a fresh color. -/
theorem palette_capacity_check_witness :
    (∃ p', insert_palette 7 (freshPalette 16) = .ok (0, p') ∧
      p'.used = 0 + 1 ∧ p'.colors 0 = 7) ∧
    insert_palette 31775 (freshPalette 256) = .error () := by
  have h := palette_capacity_check (freshPalette 16) 7 rfl
    (fun j hj => by simp [freshPalette] at hj)
  exact ⟨h.1.1 (by norm_num [freshPalette]), h.2⟩

/-- C5: a color already present resolves to the index of its first
occurrence and leaves the palette unchanged; consequently inserting the
same color twice gives the same index both times and the second insertion
does not grow the palette. -/
theorem insert_dedup_first_match :
    (∀ (p : Palette) (c : Nat), (∃ j, j < p.used ∧ p.colors j = c) →
      ∃ i, insert_palette c p = .ok (i, p) ∧ i < p.used ∧ p.colors i = c ∧
        ∀ k, k < i → p.colors k ≠ c) ∧
    (∀ (p : Palette) (c : Nat) (i : Nat) (p' : Palette), p.max < 256 →
      insert_palette c p = .ok (i, p') → insert_palette c p' = .ok (i, p')) := by
  constructor
  · intro p c ⟨j, hj, hc⟩
    cases hscan : scanPalette p.colors c p.used with
    | none => exact absurd hc (scanPalette_none_imp p.colors c p.used hscan j hj)
    | some i =>
      obtain ⟨h1, h2, h3⟩ := scanPalette_some_spec p.colors c p.used i hscan
      refine ⟨i, ?_, h1, h2, h3⟩
      unfold insert_palette
      rw [hscan]
  · intro p c i p' hmax h
    obtain ⟨hc, hi, _, _, _, _, _, hleast⟩ := insert_palette_ok_spec c p i p' hmax h
    unfold insert_palette
    rw [scanPalette_finds_least p'.colors c p'.used i hi hc hleast]

/-- Witness for C5: inserting 5 into a palette already holding 5 at index 0
returns index 0 without change, and a fresh insert followed by a repeat
returns the same index twice. -/
theorem insert_dedup_first_match_witness :
    (∃ i, insert_palette 5 ⟨fun j => if j = 0 then 5 else 0, 1, 16⟩ =
        .ok (i, ⟨fun j => if j = 0 then 5 else 0, 1, 16⟩) ∧
      i < 1 ∧ (if i = 0 then 5 else 0) = 5 ∧
      ∀ k, k < i → (if k = 0 then 5 else 0) ≠ 5) ∧
    insert_palette 9 ⟨fun j => if j = 0 then 9 else 0, 1, 16⟩ =
      .ok (0, ⟨fun j => if j = 0 then 9 else 0, 1, 16⟩) := by
  constructor
  · exact insert_dedup_first_match.1 ⟨fun j => if j = 0 then 5 else 0, 1, 16⟩ 5
      ⟨0, Nat.zero_lt_one, rfl⟩
  · exact insert_dedup_first_match.2 ⟨fun j => if j = 0 then 9 else 0, 1, 16⟩ 9 0
      ⟨fun j => if j = 0 then 9 else 0, 1, 16⟩ (by norm_num)
      (by unfold insert_palette
          rw [scanPalette_finds_least _ 9 1 0 Nat.zero_lt_one rfl (fun k hk => by omega)])

/-- Frame property of a whole run of insertions: entries below the starting
size never change, the size never shrinks, the capacity field is constant,
and entries at or above the final size are untouched. -/
theorem indicesOf_frame (cs : List Nat) :
    ∀ (p : Palette) (is : List Nat) (pF : Palette), p.max < 256 →
      indicesOf p cs = .ok (is, pF) →
      (∀ j, j < p.used → pF.colors j = p.colors j) ∧ p.used ≤ pF.used ∧
      pF.max = p.max ∧ (∀ j, pF.used ≤ j → pF.colors j = p.colors j) := by
  induction cs with
  | nil =>
    intro p is pF hmax h
    unfold indicesOf at h
    simp only [Except.ok.injEq, Prod.mk.injEq] at h
    obtain ⟨rfl, rfl⟩ := h
    exact ⟨fun _ _ => rfl, Nat.le_refl _, rfl, fun _ _ => rfl⟩
  | cons c rest ih =>
    intro p is pF hmax h
    unfold indicesOf at h
    cases hins : insert_palette c p with
    | error e => simp only [hins] at h; exact absurd h (by simp)
    | ok v =>
      obtain ⟨i, p1⟩ := v
      simp only [hins] at h
      cases hrec : indicesOf p1 rest with
      | error e => simp only [hins, hrec] at h; exact absurd h (by simp)
      | ok w =>
        obtain ⟨is1, pF1⟩ := w
        simp only [hrec, Except.ok.injEq, Prod.mk.injEq] at h
        obtain ⟨rfl, rfl⟩ := h
        obtain ⟨_, _, hle1, _, hmax1, hframe1, hhigh1, _⟩ :=
          insert_palette_ok_spec c p i p1 hmax hins
        obtain ⟨hframe2, hle2, hmax2, hhigh2⟩ := ih p1 is1 pF1 (hmax1 ▸ hmax) hrec
        refine ⟨?_, Nat.le_trans hle1 hle2, by rw [hmax2, hmax1], ?_⟩
        · intro j hj
          rw [hframe2 j (Nat.lt_of_lt_of_le hj hle1), hframe1 j hj]
        · intro j hj
          rw [hhigh2 j hj, hhigh1 j (Nat.le_trans hle2 hj)]

/-- C10: one insertion leaves every previously assigned entry unchanged and
grows the size by at most one; and once an index has been returned for a
color, that index holds that color for the remainder of the run (any
further sequence of insertions). -/
theorem insert_frame_and_stability (c : Nat) (p : Palette) (i : Nat)
    (p' : Palette) (hmax : p.max < 256) (h : insert_palette c p = .ok (i, p')) :
    (∀ j, j < p.used → p'.colors j = p.colors j) ∧
    p.used ≤ p'.used ∧ p'.used ≤ p.used + 1 ∧
    p'.colors i = c ∧ i < p'.used ∧
    (∀ cs is pF, indicesOf p' cs = .ok (is, pF) → pF.colors i = c) := by
  obtain ⟨hc, hi, hle, hle1, hmax', hframe, _, _⟩ :=
    insert_palette_ok_spec c p i p' hmax h
  refine ⟨hframe, hle, hle1, hc, hi, ?_⟩
  intro cs is pF hrun
  obtain ⟨hframe2, _, _, _⟩ := indicesOf_frame cs p' is pF (hmax' ▸ hmax) hrun
  rw [hframe2 i hi, hc]

/-- Witness for C10: insert a fresh color into a one-entry palette, then
run two more insertions; index 1 still holds the color. -/
theorem insert_frame_and_stability_witness :
    ((∀ j, j < 1 → (if j = 1 then 9 else if j = 0 then 5 else 0) =
        (if j = 0 then (5 : Nat) else 0)) ∧
     1 ≤ 2 ∧ 2 ≤ 1 + 1 ∧
     (if 1 = 1 then (9 : Nat) else if 1 = 0 then 5 else 0) = 9 ∧ 1 < 2 ∧
     (∀ cs is pF,
        indicesOf ⟨fun j => if j = 1 then 9 else if j = 0 then 5 else 0, 2, 16⟩ cs =
          .ok (is, pF) → pF.colors 1 = 9)) := by
  have hbase : insert_palette 9 ⟨fun j => if j = 0 then 5 else 0, 1, 16⟩ =
      .ok (1, ⟨fun j => if j = 1 then 9 else if j = 0 then 5 else 0, 2, 16⟩) := by
    unfold insert_palette
    rw [scanPalette_none_of_notmem _ 9 1 (fun k hk => by
      have : k = 0 := by omega
      simp [this])]
    norm_num
  have h := insert_frame_and_stability 9 ⟨fun j => if j = 0 then 5 else 0, 1, 16⟩ 1
    ⟨fun j => if j = 1 then 9 else if j = 0 then 5 else 0, 2, 16⟩ (by norm_num) hbase
  exact h

/-- C9 core: in a run of insertions that completes without overflow, the
final palette entry at each returned index is the color that was inserted
for it (and the index is in range). -/
theorem indicesOf_roundtrip (cs : List Nat) :
    ∀ (p : Palette) (is : List Nat) (pF : Palette), p.max < 256 →
      indicesOf p cs = .ok (is, pF) →
      List.Forall₂ (fun i c => pF.colors i = c ∧ i < pF.used) is cs := by
  induction cs with
  | nil =>
    intro p is pF hmax h
    unfold indicesOf at h
    simp only [Except.ok.injEq, Prod.mk.injEq] at h
    obtain ⟨rfl, rfl⟩ := h
    exact List.Forall₂.nil
  | cons c rest ih =>
    intro p is pF hmax h
    unfold indicesOf at h
    cases hins : insert_palette c p with
    | error e => simp only [hins] at h; exact absurd h (by simp)
    | ok v =>
      obtain ⟨i, p1⟩ := v
      simp only [hins] at h
      cases hrec : indicesOf p1 rest with
      | error e => simp only [hins, hrec] at h; exact absurd h (by simp)
      | ok w =>
        obtain ⟨is1, pF1⟩ := w
        simp only [hrec, Except.ok.injEq, Prod.mk.injEq] at h
        obtain ⟨rfl, rfl⟩ := h
        obtain ⟨hc, hi, _, _, hmax1, _, _, _⟩ :=
          insert_palette_ok_spec c p i p1 hmax hins
        obtain ⟨hframe2, hle2, _, _⟩ :=
          indicesOf_frame rest p1 is1 pF1 (hmax1 ▸ hmax) hrec
        exact List.Forall₂.cons
          ⟨by rw [hframe2 i hi, hc], Nat.lt_of_lt_of_le hi hle2⟩
          (ih p1 is1 pF1 (hmax1 ▸ hmax) hrec)

/-- A pixel triple `(red, green, blue)` fed through the quantizer. -/
def quantizeTriple (px : Nat × Nat × Nat) : Nat := quantize px.1 px.2.1 px.2.2

/-- C9: in indexed mode, for a run that completes without overflow, the
final palette entry at the index emitted for each pixel equals that pixel's
quantized 15-bit color. -/
theorem emitted_index_roundtrip (pixels : List (Nat × Nat × Nat)) (p : Palette)
    (is : List Nat) (pF : Palette) (hmax : p.max < 256)
    (h : indicesOf p (pixels.map quantizeTriple) = .ok (is, pF)) :
    List.Forall₂ (fun i px => pF.colors i = quantizeTriple px ∧ i < pF.used)
      is pixels := by
  have := indicesOf_roundtrip (pixels.map quantizeTriple) p is pF hmax h
  exact List.forall₂_map_right_iff.mp this

/-- Witness for C9: a 2-pixel image ((255,0,0) twice) against a palette
holding the colorkey; both pixels resolve to index 1 and the final palette
maps index 1 back to 0x001F = quantize 255 0 0. -/
theorem emitted_index_roundtrip_witness :
    List.Forall₂
      (fun i px =>
        (⟨fun j => if j = 1 then 31 else if j = 0 then 31775 else 0, 2, 16⟩ :
          Palette).colors i = quantizeTriple px ∧
        i < (⟨fun j => if j = 1 then 31 else if j = 0 then 31775 else 0, 2, 16⟩ :
          Palette).used)
      [1, 1] [(255, 0, 0), (255, 0, 0)] := by
  exact emitted_index_roundtrip [(255, 0, 0), (255, 0, 0)]
    ⟨fun j => if j = 0 then 31775 else 0, 1, 16⟩ [1, 1]
    ⟨fun j => if j = 1 then 31 else if j = 0 then 31775 else 0, 2, 16⟩
    (by norm_num) rfl

/-- C6: `main` builds a fresh palette and inserts the quantized colorkey
before any pixel is processed (lines 429-433).  With a 16-color palette the
colorkey lands at index 0, stays at index 0 for the whole run, and any
pixel whose quantized color equals it resolves to index 0 by ordinary
deduplication.  But in a 256-color indexed run the truncated capacity
field makes that very first insertion fail, so no index 0 is ever
assigned: the first conjunct evaluates the code on the default colorkey
`#ff00ff` with requested capacity 256. -/
theorem colorkey_reserved_index_zero :
    insert_palette (hex24_to_15 ['#', 'f', 'f', '0', '0', 'f', 'f'])
      (freshPalette 256) = .error () ∧
    (∀ ck : List Char,
      ∃ p0, insert_palette (hex24_to_15 ck) (freshPalette 16) = .ok (0, p0) ∧
        p0.colors 0 = hex24_to_15 ck ∧ p0.used = 1) ∧
    (∀ (p : Palette) (c : Nat), 0 < p.used → p.colors 0 = c →
      insert_palette c p = .ok (0, p)) ∧
    (∀ (p : Palette), p.max < 256 → ∀ cs is pF, indicesOf p cs = .ok (is, pF) →
      0 < p.used → pF.colors 0 = p.colors 0) := by
  refine ⟨rfl, ?_, ?_, ?_⟩
  · intro ck
    exact ⟨⟨fun j => if j = 0 then hex24_to_15 ck else 0, 1, 16⟩, rfl, rfl, rfl⟩
  · intro p c hu hc
    unfold insert_palette
    rw [scanPalette_finds_least p.colors c p.used 0 hu hc (fun k hk => absurd hk (by omega))]
  · intro p hmax cs is pF hrun hu
    exact (indicesOf_frame cs p is pF hmax hrun).1 0 hu

/-- Witness for C6: the one-entry palette holding the quantized default
colorkey 0x7C1F at index 0 resolves a matching pixel back to index 0. -/
theorem colorkey_reserved_index_zero_witness :
    0 < (1 : Nat) ∧
    insert_palette 31775 ⟨fun j => if j = 0 then 31775 else 0, 1, 16⟩ =
      .ok (0, ⟨fun j => if j = 0 then 31775 else 0, 1, 16⟩) := by
  exact ⟨Nat.zero_lt_one,
    colorkey_reserved_index_zero.2.2.1 ⟨fun j => if j = 0 then 31775 else 0, 1, 16⟩
      31775 Nat.zero_lt_one rfl⟩

/-! ### The traversal engine: generic facts -/

theorem intRange_length (n : Nat) : ∀ a : Int, (intRange a n).length = n := by
  induction n with
  | zero => intro a; rfl
  | succ m ih => intro a; simp [intRange, ih]

theorem intRange_append (n : Nat) :
    ∀ (m : Nat) (a : Int), intRange a (n + m) = intRange a n ++ intRange (a + n) m := by
  induction n with
  | zero => intro m a; simp [intRange]
  | succ k ih =>
    intro m a
    have hs : k + 1 + m = (k + m) + 1 := by omega
    rw [hs]
    show a :: intRange (a + 1) (k + m) = (a :: intRange (a + 1) k) ++ intRange (a + (k + 1)) m
    rw [ih m (a + 1)]
    simp only [List.cons_append, List.cons.injEq, true_and]
    congr 1
    push_cast
    ring

theorem mem_intRange (n : Nat) :
    ∀ (a x : Int), x ∈ intRange a n ↔ a ≤ x ∧ x < a + n := by
  induction n with
  | zero =>
    intro a x
    simp only [intRange, List.not_mem_nil, false_iff]
    push_cast
    omega
  | succ m ih =>
    intro a x
    simp only [intRange, List.mem_cons, ih]
    constructor
    · rintro (rfl | ⟨h1, h2⟩) <;> push_cast <;> omega
    · intro ⟨h1, h2⟩
      by_cases hx : x = a
      · exact Or.inl hx
      · right; push_cast at h2 ⊢; omega

theorem intRange_pairwise_lt (n : Nat) :
    ∀ a : Int, (intRange a n).Pairwise (· < ·) := by
  induction n with
  | zero => intro a; exact List.Pairwise.nil
  | succ m ih =>
    intro a
    refine List.Pairwise.cons ?_ (ih (a + 1))
    intro b hb
    have := (mem_intRange m (a + 1) b).mp hb
    omega

theorem intRange_nodup (n : Nat) (a : Int) : (intRange a n).Nodup := by
  have := intRange_pairwise_lt n a
  exact this.imp (fun h => by omega)

theorem traverse_step_some (W H : Int) (t : Bool) (fuel : Nat) (s : Cursor)
    (pos : Int × Int) (s1 : Cursor) (h : next_byte W H t s = some (pos, s1)) :
    traverse W H t (fuel + 1) s = pos :: traverse W H t fuel s1 := by
  simp [traverse, h]

/-- The loop ends exactly when the cursor row equals the image height. -/
theorem traverse_terminal (W H : Int) (t : Bool) (fuel : Nat) (s : Cursor)
    (h : s.r = H) : traverse W H t fuel s = [] := by
  cases fuel with
  | zero => rfl
  | succ n => simp [traverse, next_byte, h]

/-! ### Linear traversal (C2) -/

theorem next_byte_linear_step (W H r c tr tc : Int) (hr : ¬(r = H)) :
    next_byte W H false ⟨r, c, tr, tc⟩ =
      if c + 1 ≥ W then some ((r, c), ⟨r + 1, 0, tr, tc⟩)
      else some ((r, c), ⟨r, c + 1, tr, tc⟩) := by
  simp only [next_byte, if_neg hr, Bool.not_false, if_true]

/-- One full image row in linear mode: from column `c` with `k + 1` columns
remaining, the loop yields them left to right and wraps to the next row. -/
theorem traverse_linear_row (W H : Nat) (k : Nat) :
    ∀ (fuel : Nat) (r c tr tc : Int), r ≠ (H : Int) →
      c + ((k : Int) + 1) = (W : Int) →
      traverse W H false ((k + 1) + fuel) ⟨r, c, tr, tc⟩ =
        ((intRange c (k + 1)).map fun j => (r, j)) ++
          traverse W H false fuel ⟨r + 1, 0, tr, tc⟩ := by
  induction k with
  | zero =>
    intro fuel r c tr tc hr hc
    have hge : c + 1 ≥ (W : Int) := by omega
    have hstep : next_byte (W : Int) (H : Int) false ⟨r, c, tr, tc⟩ =
        some ((r, c), ⟨r + 1, 0, tr, tc⟩) := by
      rw [next_byte_linear_step _ _ _ _ _ _ hr, if_pos hge]
    have hf : 0 + 1 + fuel = fuel + 1 := by omega
    rw [hf, traverse_step_some _ _ _ _ _ _ _ hstep]
    simp [intRange]
  | succ m ih =>
    intro fuel r c tr tc hr hc
    have hlt : ¬(c + 1 ≥ (W : Int)) := by push_cast at hc ⊢; omega
    have hstep : next_byte (W : Int) (H : Int) false ⟨r, c, tr, tc⟩ =
        some ((r, c), ⟨r, c + 1, tr, tc⟩) := by
      rw [next_byte_linear_step _ _ _ _ _ _ hr, if_neg hlt]
    have hf : (m + 1 + 1) + fuel = ((m + 1) + fuel) + 1 := by omega
    rw [hf, traverse_step_some _ _ _ _ _ _ _ hstep]
    rw [ih fuel r (c + 1) tr tc hr (by push_cast at hc ⊢; omega)]
    simp [intRange]

/-- All remaining rows in linear mode: from row `r` with `m` rows left, the
loop yields them in row-major order and parks the cursor at row `H`. -/
theorem traverse_linear_rows (W H : Nat) (hW : 0 < W) (m : Nat) :
    ∀ (fuel : Nat) (r tr tc : Int), r + (m : Int) = (H : Int) →
      traverse W H false (m * W + fuel) ⟨r, 0, tr, tc⟩ =
        ((intRange r m).flatMap fun i => (intRange 0 W).map fun c => (i, c)) ++
          traverse W H false fuel ⟨(H : Int), 0, tr, tc⟩ := by
  induction m with
  | zero =>
    intro fuel r tr tc hr
    have hrH : r = (H : Int) := by push_cast at hr; omega
    subst hrH
    simp [intRange]
  | succ n ih =>
    intro fuel r tr tc hr
    obtain ⟨k, rfl⟩ : ∃ k, W = k + 1 := ⟨W - 1, by omega⟩
    have hrne : r ≠ (H : Int) := by push_cast at hr; omega
    have hf : (n + 1) * (k + 1) + fuel = (k + 1) + (n * (k + 1) + fuel) := by ring
    rw [hf, traverse_linear_row (k + 1) H k _ r 0 tr tc hrne (by push_cast; omega)]
    rw [ih fuel (r + 1) tr tc (by push_cast at hr ⊢; omega)]
    simp [intRange]

theorem rowBlock_length (W : Nat) :
    ∀ (n : Nat) (a : Int),
      ((intRange a n).flatMap fun i =>
        (intRange 0 W).map fun c => (i, c)).length = n * W := by
  intro n
  induction n with
  | zero => intro a; simp [intRange]
  | succ m ih =>
    intro a
    simp only [intRange, List.flatMap_cons, List.length_append, List.length_map,
      intRange_length, ih]
    ring

/-- C2: linear traversal of a `W × H` image (any positive sizes) yields
exactly the row-major enumeration of all `W * H` positions — each position
in `[0,H) × [0,W)` exactly once, row 0 left to right, then row 1, ... —
and yields nothing beyond them no matter how much longer the loop runs. -/
theorem linear_traversal_rowmajor (W H : Nat) (hW : 0 < W) (hH : 0 < H) :
    (∀ extra, traverse W H false (W * H + extra) initCursor = rowMajor W H) ∧
    (rowMajor W H).length = H * W ∧
    (rowMajor W H).Nodup ∧
    (∀ p : Int × Int, p ∈ rowMajor W H ↔
      0 ≤ p.1 ∧ p.1 < H ∧ 0 ≤ p.2 ∧ p.2 < W) := by
  refine ⟨?_, ?_, ?_, ?_⟩
  · intro extra
    have hf : W * H + extra = H * W + extra := by ring
    rw [show initCursor = ⟨0, 0, 0, 0⟩ from rfl, hf,
      traverse_linear_rows W H hW H extra 0 0 0 (by push_cast; omega),
      traverse_terminal (W : Int) (H : Int) false extra ⟨(H : Int), 0, 0, 0⟩ rfl]
    simp [rowMajor]
  · rw [rowMajor, rowBlock_length]
  · rw [rowMajor, List.nodup_flatMap]
    constructor
    · intro i _
      exact (intRange_nodup W 0).map fun x y h => by simpa using h
    · refine (intRange_pairwise_lt H 0).imp ?_
      intro i1 i2 hlt
      intro p hp1 hp2
      simp only [List.mem_map] at hp1 hp2
      obtain ⟨c1, _, rfl⟩ := hp1
      obtain ⟨c2, _, h2⟩ := hp2
      have : i1 = i2 := (Prod.mk.injEq _ _ _ _).mp h2.symm |>.1
      omega
  · intro p
    rw [rowMajor]
    simp only [List.mem_flatMap, List.mem_map, mem_intRange]
    constructor
    · rintro ⟨i, ⟨hi1, hi2⟩, c, ⟨hc1, hc2⟩, rfl⟩
      simp; omega
    · rintro ⟨h1, h2, h3, h4⟩
      exact ⟨p.1, ⟨h1, by omega⟩, p.2, ⟨h3, by omega⟩, rfl⟩

/-- Witness for C2 at a 2×2 image with one unit of extra fuel. -/
theorem linear_traversal_rowmajor_witness :
    traverse 2 2 false (2 * 2 + 1) initCursor = rowMajor 2 2 := by
  exact (linear_traversal_rowmajor 2 2 (by decide) (by decide)).1 1

/-! ### Tiled traversal (C3) -/

theorem next_byte_tiled_step (W H r c tr tc : Int) (hr : ¬(r = H)) :
    next_byte W H true ⟨r, c, tr, tc⟩ =
      if tc + 1 ≥ 8 then
        if tr + 1 ≥ 8 then
          if c + 1 - 8 + 8 ≥ W then some ((r, c), ⟨r + 1 - 8 + 8, 0, 0, 0⟩)
          else some ((r, c), ⟨r + 1 - 8, c + 1 - 8 + 8, 0, 0⟩)
        else
          if c + 1 - 8 ≥ W then some ((r, c), ⟨r + 1 + 8, 0, 0, 0⟩)
          else some ((r, c), ⟨r + 1, c + 1 - 8, tr + 1, 0⟩)
      else some ((r, c), ⟨r, c + 1, tr, tc + 1⟩) := by
  simp only [next_byte, if_neg hr, Bool.not_true, Bool.false_eq_true, if_false]

theorem tiled_mid_step (W H r c tr tc : Int) (hr : ¬(r = H)) (htc : tc + 1 < 8) :
    next_byte W H true ⟨r, c, tr, tc⟩ = some ((r, c), ⟨r, c + 1, tr, tc + 1⟩) := by
  rw [next_byte_tiled_step W H r c tr tc hr, if_neg (by omega)]

/-- Advancing inside one pixel row of a tile: while `tc` stays below 8 the
cursor moves right one column per call. -/
theorem traverse_tiled_cols (Wi Hi : Int) :
    ∀ (k tcn : Nat) (fuel : Nat) (r c tr : Int), r ≠ Hi → tcn + k ≤ 7 →
      traverse Wi Hi true (k + fuel) ⟨r, c, tr, (tcn : Int)⟩ =
        ((intRange c k).map fun j => (r, j)) ++
          traverse Wi Hi true fuel
            ⟨r, c + (k : Int), tr, ((tcn + k : Nat) : Int)⟩ := by
  intro k
  induction k with
  | zero =>
    intro tcn fuel r c tr hr hle
    simp [intRange]
  | succ m ih =>
    intro tcn fuel r c tr hr hle
    have hstep := tiled_mid_step Wi Hi r c tr (tcn : Int) hr (by push_cast; omega)
    have hf : (m + 1) + fuel = (m + fuel) + 1 := by omega
    have hcast : ((tcn : Int) + 1) = ((tcn + 1 : Nat) : Int) := by push_cast; ring
    rw [hf, traverse_step_some _ _ _ _ _ _ _ hstep,
      hcast, ih (tcn + 1) fuel r (c + 1) tr hr (by omega)]
    have h1 : c + 1 + (m : Int) = c + ((m + 1 : Nat) : Int) := by push_cast; ring
    have h2 : tcn + 1 + m = tcn + (m + 1) := by omega
    rw [h1, h2]
    simp [intRange]

/-- The state reached after finishing pixel row `pr` of tile `(tR, tC)`. -/
def rowSuccState (w tR tC pr : Nat) : Cursor :=
  if pr + 1 < 8 then ⟨((8 * tR + (pr + 1) : Nat) : Int), ((8 * tC : Nat) : Int), ((pr + 1 : Nat) : Int), 0⟩
  else if tC + 1 < w then ⟨((8 * tR : Nat) : Int), ((8 * (tC + 1) : Nat) : Int), 0, 0⟩
  else ⟨((8 * (tR + 1) : Nat) : Int), 0, 0, 0⟩

/-- One full pixel row of a tile: 8 positions left to right, then the C
row-end stepping moves to the next pixel row, the next tile, or the next
tile row. -/
theorem traverse_tiled_pixelrow (w h tR tC pr : Nat)
    (htR : tR < h) (htC : tC < w) (hpr : pr < 8) (fuel : Nat) :
    traverse ((8 * w : Nat) : Int) ((8 * h : Nat) : Int) true (8 + fuel)
      ⟨((8 * tR + pr : Nat) : Int), ((8 * tC : Nat) : Int), ((pr : Nat) : Int), 0⟩ =
      ((intRange ((8 * tC : Nat) : Int) 8).map fun j => (((8 * tR + pr : Nat) : Int), j)) ++
        traverse ((8 * w : Nat) : Int) ((8 * h : Nat) : Int) true fuel (rowSuccState w tR tC pr) := by
  have hrne : ((8 * tR + pr : Nat) : Int) ≠ ((8 * h : Nat) : Int) := by push_cast; omega
  have hf : 8 + fuel = 7 + (fuel + 1) := by omega
  rw [hf, show ((0 : Int) = ((0 : Nat) : Int)) from rfl,
    traverse_tiled_cols _ _ 7 0 (fuel + 1) _ _ _ hrne (by omega)]
  have hsplit : intRange ((8 * tC : Nat) : Int) 8 =
      intRange ((8 * tC : Nat) : Int) 7 ++ [((8 * tC : Nat) : Int) + ((7 : Nat) : Int)] :=
    intRange_append 7 1 ((8 * tC : Nat) : Int)
  rw [hsplit, List.map_append, List.append_assoc]
  congr 1
  simp only [List.map_cons, List.map_nil, List.singleton_append]
  set r : Int := ((8 * tR + pr : Nat) : Int) with hrdef
  set c : Int := ((8 * tC : Nat) : Int) + ((7 : Nat) : Int) with hcdef
  have hstep := next_byte_tiled_step ((8 * w : Nat) : Int) ((8 * h : Nat) : Int) r c
    ((pr : Nat) : Int) (((0 + 7 : Nat) : Nat) : Int) hrne
  have hc1 : (((0 + 7 : Nat) : Nat) : Int) + 1 ≥ 8 := by omega
  rw [if_pos hc1] at hstep
  by_cases hpr7 : pr + 1 < 8
  · have hc2 : ¬((pr : Int) + 1 ≥ 8) := by omega
    have hc3 : ¬(c + 1 - 8 ≥ ((8 * w : Nat) : Int)) := by rw [hcdef]; omega
    rw [if_neg hc2, if_neg hc3] at hstep
    rw [traverse_step_some _ _ _ _ _ _ _ hstep]
    rw [rowSuccState, if_pos hpr7]
    have e1 : r + 1 = ((8 * tR + (pr + 1) : Nat) : Int) := by rw [hrdef]; omega
    have e2 : c + 1 - 8 = ((8 * tC : Nat) : Int) := by rw [hcdef]; omega
    have e3 : ((pr : Nat) : Int) + 1 = ((pr + 1 : Nat) : Int) := by omega
    rw [e1, e2, e3]
  · have hpr7e : pr = 7 := by omega
    subst hpr7e
    have hc2 : (((7 : Nat) : Int) + 1 ≥ 8) := by omega
    rw [if_pos hc2] at hstep
    by_cases htC1 : tC + 1 < w
    · have hc3 : ¬(c + 1 - 8 + 8 ≥ ((8 * w : Nat) : Int)) := by rw [hcdef]; omega
      rw [if_neg hc3] at hstep
      rw [traverse_step_some _ _ _ _ _ _ _ hstep]
      rw [rowSuccState, if_neg (by omega), if_pos htC1]
      have e1 : r + 1 - 8 = ((8 * tR : Nat) : Int) := by rw [hrdef]; omega
      have e2 : c + 1 - 8 + 8 = ((8 * (tC + 1) : Nat) : Int) := by rw [hcdef]; omega
      rw [e1, e2]
    · have hc3 : (c + 1 - 8 + 8 ≥ ((8 * w : Nat) : Int)) := by rw [hcdef]; omega
      rw [if_pos hc3] at hstep
      rw [traverse_step_some _ _ _ _ _ _ _ hstep]
      rw [rowSuccState, if_neg (by omega), if_neg htC1]
      have e1 : r + 1 - 8 + 8 = ((8 * (tR + 1) : Nat) : Int) := by rw [hrdef]; omega
      rw [e1]

/-- The state reached after finishing a whole tile. -/
def tileSuccState (w tR tC : Nat) : Cursor :=
  if tC + 1 < w then ⟨((8 * tR : Nat) : Int), ((8 * (tC + 1) : Nat) : Int), 0, 0⟩
  else ⟨((8 * (tR + 1) : Nat) : Int), 0, 0, 0⟩

theorem rowSuccState_seven (w tR tC : Nat) :
    rowSuccState w tR tC 7 = tileSuccState w tR tC := by
  rw [rowSuccState, tileSuccState, if_neg (by omega)]

/-- One full 8×8 tile: 64 positions, pixel rows top to bottom, then the
stepping moves to the next tile (or the next tile row). -/
theorem traverse_tiled_tile (w h tR tC : Nat) (htR : tR < h) (htC : tC < w) :
    ∀ (k pr : Nat) (fuel : Nat), pr + k = 8 → pr < 8 →
      traverse ((8 * w : Nat) : Int) ((8 * h : Nat) : Int) true (8 * k + fuel)
        ⟨((8 * tR + pr : Nat) : Int), ((8 * tC : Nat) : Int), ((pr : Nat) : Int), 0⟩ =
        ((intRange ((8 * tR + pr : Nat) : Int) k).flatMap fun i =>
          (intRange ((8 * tC : Nat) : Int) 8).map fun j => (i, j)) ++
          traverse ((8 * w : Nat) : Int) ((8 * h : Nat) : Int) true fuel
            (tileSuccState w tR tC) := by
  intro k
  induction k with
  | zero => intro pr fuel h8 hlt8; omega
  | succ m ih =>
    intro pr fuel h8 hlt
    have hfuel : 8 * (m + 1) + fuel = 8 + (8 * m + fuel) := by ring
    rw [hfuel, traverse_tiled_pixelrow w h tR tC pr htR htC hlt (8 * m + fuel)]
    by_cases hm : m = 0
    · subst hm
      have hpr : pr = 7 := by omega
      subst hpr
      rw [rowSuccState_seven]
      rw [show 8 * 0 + fuel = fuel from by omega]
      simp [intRange]
    · have hprm : pr + 1 < 8 := by omega
      rw [rowSuccState, if_pos hprm]
      rw [ih (pr + 1) fuel (by omega) (by omega)]
      have ecast : ((8 * tR + pr : Nat) : Int) + 1 = ((8 * tR + (pr + 1) : Nat) : Int) := by
        omega
      show _ ++ _ = ((((8 * tR + pr : Nat) : Int) ::
        intRange (((8 * tR + pr : Nat) : Int) + 1) m).flatMap fun i =>
          (intRange ((8 * tC : Nat) : Int) 8).map fun j => (i, j)) ++ _
      rw [List.flatMap_cons, ecast, List.append_assoc]

/-- One full row of tiles: tiles left to right, then the cursor moves to
the start of the next tile row. -/
theorem traverse_tiled_tilerow (w h tR : Nat) (htR : tR < h) :
    ∀ (j tC : Nat) (fuel : Nat), tC + j = w → 0 < j →
      traverse ((8 * w : Nat) : Int) ((8 * h : Nat) : Int) true (64 * j + fuel)
        ⟨((8 * tR : Nat) : Int), ((8 * tC : Nat) : Int), 0, 0⟩ =
        ((intRange (tC : Int) j).flatMap fun t =>
          (intRange ((8 * tR : Nat) : Int) 8).flatMap fun i =>
            (intRange (8 * t) 8).map fun j => (i, j)) ++
          traverse ((8 * w : Nat) : Int) ((8 * h : Nat) : Int) true fuel
            ⟨((8 * (tR + 1) : Nat) : Int), 0, 0, 0⟩ := by
  intro j
  induction j with
  | zero => intro tC fuel hw h0; omega
  | succ m ih =>
    intro tC fuel hw h0
    have htC : tC < w := by omega
    have hfuel : 64 * (m + 1) + fuel = 8 * 8 + (64 * m + fuel) := by ring
    have hstart : (⟨((8 * tR : Nat) : Int), ((8 * tC : Nat) : Int), 0, 0⟩ : Cursor) =
        ⟨((8 * tR + 0 : Nat) : Int), ((8 * tC : Nat) : Int), ((0 : Nat) : Int), 0⟩ := by
      simp
    rw [hfuel, hstart,
      traverse_tiled_tile w h tR tC htR htC 8 0 (64 * m + fuel) (by omega) (by omega)]
    have hblock : ((intRange ((8 * tR + 0 : Nat) : Int) 8).flatMap fun i =>
        (intRange ((8 * tC : Nat) : Int) 8).map fun j => (i, j)) =
        (intRange ((8 * tR : Nat) : Int) 8).flatMap fun i =>
          (intRange (8 * (tC : Int)) 8).map fun j => (i, j) := by
      have e1 : ((8 * tR + 0 : Nat) : Int) = ((8 * tR : Nat) : Int) := by omega
      have e2 : ((8 * tC : Nat) : Int) = 8 * (tC : Int) := by push_cast; ring
      rw [e1, e2]
    rw [hblock]
    by_cases hm : m = 0
    · subst hm
      have hw2 : ¬(tC + 1 < w) := by omega
      rw [tileSuccState, if_neg hw2]
      rw [show 64 * 0 + fuel = fuel from by omega]
      simp [intRange]
    · have hw2 : tC + 1 < w := by omega
      rw [tileSuccState, if_pos hw2]
      rw [ih (tC + 1) fuel (by omega) (by omega)]
      have ecast : (tC : Int) + 1 = ((tC + 1 : Nat) : Int) := by omega
      show _ ++ _ = (((tC : Int) :: intRange ((tC : Int) + 1) m).flatMap fun t =>
        (intRange ((8 * tR : Nat) : Int) 8).flatMap fun i =>
          (intRange (8 * t) 8).map fun j => (i, j)) ++ _
      rw [List.flatMap_cons, ecast, List.append_assoc]

/-- All tile rows: the complete tiled traversal parks the cursor at row
`8 * h` and stops. -/
theorem traverse_tiled_all (w h : Nat) (hw : 0 < w) :
    ∀ (m tR : Nat) (fuel : Nat), tR + m = h →
      traverse ((8 * w : Nat) : Int) ((8 * h : Nat) : Int) true (64 * w * m + fuel)
        ⟨((8 * tR : Nat) : Int), 0, 0, 0⟩ =
        ((intRange (tR : Int) m).flatMap fun rI =>
          (intRange 0 w).flatMap fun t =>
            (intRange (8 * rI) 8).flatMap fun i =>
              (intRange (8 * t) 8).map fun j => (i, j)) ++
          traverse ((8 * w : Nat) : Int) ((8 * h : Nat) : Int) true fuel
            ⟨((8 * h : Nat) : Int), 0, 0, 0⟩ := by
  intro m
  induction m with
  | zero =>
    intro tR fuel hh
    have : tR = h := by omega
    subst this
    simp [intRange]
  | succ n ih =>
    intro tR fuel hh
    have htR : tR < h := by omega
    have hfuel : 64 * w * (n + 1) + fuel = 64 * w + (64 * w * n + fuel) := by ring
    have hstart : (⟨((8 * tR : Nat) : Int), 0, 0, 0⟩ : Cursor) =
        ⟨((8 * tR : Nat) : Int), ((8 * 0 : Nat) : Int), 0, 0⟩ := by norm_num
    rw [hfuel, hstart,
      traverse_tiled_tilerow w h tR htR w 0 (64 * w * n + fuel) (by omega) hw,
      ih (tR + 1) fuel (by omega)]
    have e0 : ((0 : Nat) : Int) = (0 : Int) := by norm_num
    have eR : ((8 * tR : Nat) : Int) = 8 * (tR : Int) := by push_cast; ring
    have ecast : (tR : Int) + 1 = ((tR + 1 : Nat) : Int) := by omega
    show _ ++ _ = (((tR : Int) :: intRange ((tR : Int) + 1) n).flatMap fun rI =>
      (intRange 0 w).flatMap fun t =>
        (intRange (8 * rI) 8).flatMap fun i =>
          (intRange (8 * t) 8).map fun j => (i, j)) ++ _
    rw [List.flatMap_cons, ecast, List.append_assoc, e0, eR]

theorem intRange_shift (n : Nat) :
    ∀ d : Int, intRange d n = (intRange 0 n).map fun x => d + x := by
  induction n with
  | zero => intro d; rfl
  | succ m ih =>
    intro d
    show d :: intRange (d + 1) m = (intRange (0 : Int) (m + 1)).map fun x => d + x
    rw [show intRange (0 : Int) (m + 1) = 0 :: intRange 1 m from by norm_num [intRange],
      List.map_cons, ih (d + 1), ih 1, List.map_map]
    congr 1
    · omega
    · refine List.map_congr_left ?_
      intro x _
      simp only [Function.comp_apply]
      ring

/-- An 8×8 tile block addressed by absolute corner rows/columns equals the
same block addressed by intra-tile offsets. -/
theorem tileBlock_bridge (a b : Int) :
    ((intRange (8 * a) 8).flatMap fun i => (intRange (8 * b) 8).map fun j => (i, j)) =
      (intRange 0 8).flatMap fun pr => (intRange 0 8).map fun pc =>
        (8 * a + pr, 8 * b + pc) := by
  rw [intRange_shift 8 (8 * a), List.flatMap_map]
  refine List.flatMap_congr ?_
  intro pr _
  rw [intRange_shift 8 (8 * b), List.map_map]
  rfl

theorem tileOrder_eq_assembled (w h : Nat) :
    tileOrder w h =
      (intRange 0 h).flatMap fun rI =>
        (intRange 0 w).flatMap fun t =>
          (intRange (8 * rI) 8).flatMap fun i =>
            (intRange (8 * t) 8).map fun j => (i, j) := by
  rw [tileOrder]
  refine List.flatMap_congr ?_
  intro rI _
  refine List.flatMap_congr ?_
  intro t _
  exact (tileBlock_bridge rI t).symm

theorem mem_tileBlock (a b : Int) (p : Int × Int) :
    p ∈ ((intRange (8 * a) 8).flatMap fun i =>
        (intRange (8 * b) 8).map fun j => (i, j)) ↔
      8 * a ≤ p.1 ∧ p.1 < 8 * a + 8 ∧ 8 * b ≤ p.2 ∧ p.2 < 8 * b + 8 := by
  simp only [List.mem_flatMap, List.mem_map, mem_intRange]
  constructor
  · rintro ⟨i, ⟨hi1, hi2⟩, j, ⟨hj1, hj2⟩, rfl⟩
    simp only
    push_cast at hi2 hj2
    omega
  · rintro ⟨h1, h2, h3, h4⟩
    exact ⟨p.1, ⟨h1, by push_cast; omega⟩, p.2, ⟨h3, by push_cast; omega⟩, rfl⟩

theorem tileBlock_nodup (a b : Int) :
    ((intRange (8 * a) 8).flatMap fun i =>
      (intRange (8 * b) 8).map fun j => (i, j)).Nodup := by
  rw [List.nodup_flatMap]
  constructor
  · intro i _
    exact (intRange_nodup 8 (8 * b)).map fun x y hxy => by simpa using hxy
  · refine (intRange_pairwise_lt 8 (8 * a)).imp ?_
    intro i1 i2 hlt p hp1 hp2
    simp only [List.mem_map] at hp1 hp2
    obtain ⟨j1, _, rfl⟩ := hp1
    obtain ⟨j2, _, heq⟩ := hp2
    have : i2 = i1 := ((Prod.mk.injEq _ _ _ _).mp heq).1
    omega

theorem mem_tileRowBlock (w : Nat) (a : Int) (p : Int × Int) :
    p ∈ ((intRange 0 w).flatMap fun t =>
        (intRange (8 * a) 8).flatMap fun i =>
          (intRange (8 * t) 8).map fun j => (i, j)) ↔
      8 * a ≤ p.1 ∧ p.1 < 8 * a + 8 ∧ 0 ≤ p.2 ∧ p.2 < 8 * w := by
  rw [List.mem_flatMap]
  constructor
  · rintro ⟨t, ht, hblock⟩
    rw [mem_intRange] at ht
    rw [mem_tileBlock] at hblock
    push_cast at ht
    omega
  · rintro ⟨h1, h2, h3, h4⟩
    refine ⟨p.2 / 8, ?_, ?_⟩
    · rw [mem_intRange]
      push_cast
      omega
    · rw [mem_tileBlock]
      omega

theorem tileRowBlock_nodup (w : Nat) (a : Int) :
    ((intRange 0 w).flatMap fun t =>
      (intRange (8 * a) 8).flatMap fun i =>
        (intRange (8 * t) 8).map fun j => (i, j)).Nodup := by
  rw [List.nodup_flatMap]
  refine ⟨fun t _ => tileBlock_nodup a t, ?_⟩
  refine (intRange_pairwise_lt w 0).imp ?_
  intro t1 t2 hlt p hp1 hp2
  rw [mem_tileBlock] at hp1 hp2
  omega

theorem tileOrder_nodup (w h : Nat) : (tileOrder w h).Nodup := by
  rw [tileOrder_eq_assembled, List.nodup_flatMap]
  refine ⟨fun rI _ => tileRowBlock_nodup w rI, ?_⟩
  refine (intRange_pairwise_lt h 0).imp ?_
  intro r1 r2 hlt p hp1 hp2
  rw [mem_tileRowBlock] at hp1 hp2
  omega

theorem mem_tileOrder (w h : Nat) (p : Int × Int) :
    p ∈ tileOrder w h ↔ 0 ≤ p.1 ∧ p.1 < 8 * h ∧ 0 ≤ p.2 ∧ p.2 < 8 * w := by
  rw [tileOrder_eq_assembled, List.mem_flatMap]
  constructor
  · rintro ⟨rI, hr, hrow⟩
    rw [mem_intRange] at hr
    rw [mem_tileRowBlock] at hrow
    push_cast at hr
    omega
  · rintro ⟨h1, h2, h3, h4⟩
    refine ⟨p.1 / 8, ?_, ?_⟩
    · rw [mem_intRange]
      push_cast
      omega
    · rw [mem_tileRowBlock]
      omega

set_option maxRecDepth 40000 in
/-- C3: tiled traversal of an `8w × 8h` image yields exactly the 8×8
tile-major enumeration (tiles left to right across each tile row, tile
rows top to bottom, row-major inside a tile), visiting each position of
the image exactly once, with nothing yielded beyond them; for an 8×8 image
the tiled order coincides with linear traversal, and for a 16×8 image all
64 positions of the left tile (columns < 8) come before any position of
the right tile (columns ≥ 8). -/
theorem tiled_traversal_tilemajor (w h : Nat) (hw : 0 < w) (hh : 0 < h) :
    (∀ extra, traverse ((8 * w : Nat) : Int) ((8 * h : Nat) : Int) true
        (64 * w * h + extra) initCursor = tileOrder w h) ∧
    (tileOrder w h).Nodup ∧
    (∀ p : Int × Int, p ∈ tileOrder w h ↔
      0 ≤ p.1 ∧ p.1 < 8 * h ∧ 0 ≤ p.2 ∧ p.2 < 8 * w) ∧
    traverse 8 8 true 64 initCursor = traverse 8 8 false 64 initCursor ∧
    (∀ p ∈ (traverse 16 8 true 128 initCursor).take 64, p.2 < 8) ∧
    (∀ p ∈ (traverse 16 8 true 128 initCursor).drop 64, 8 ≤ p.2) ∧
    (traverse 16 8 true 128 initCursor).length = 128 := by
  refine ⟨?_, tileOrder_nodup w h, mem_tileOrder w h, by decide, by decide, by decide, by decide⟩
  intro extra
  have hstart : initCursor = ⟨((8 * 0 : Nat) : Int), 0, 0, 0⟩ := by norm_num [initCursor]
  rw [hstart, traverse_tiled_all w h hw h 0 extra (by omega),
    traverse_terminal ((8 * w : Nat) : Int) ((8 * h : Nat) : Int) true extra
      ⟨((8 * h : Nat) : Int), 0, 0, 0⟩ rfl,
    tileOrder_eq_assembled,
    show ((0 : Nat) : Int) = (0 : Int) from by norm_num]
  simp

/-- Witness for C3 at a 16×8 image (two tiles in one tile row). -/
theorem tiled_traversal_tilemajor_witness :
    traverse ((8 * 2 : Nat) : Int) ((8 * 1 : Nat) : Int) true (64 * 2 * 1 + 0)
      initCursor = tileOrder 2 1 :=
  (tiled_traversal_tilemajor 2 1 (by decide) (by decide)).1 0

set_option maxRecDepth 40000 in
/-- C8: requesting tiled mode on a 12×8 image (width not a multiple of 8)
is not rejected: `main` performs no dimension check and `next_byte` happily
yields positions, including the out-of-range column 12 (an out-of-bounds
read of the pixel row in C), instead of failing with an
UnsupportedDimensions error before traversal. -/
theorem tiled_nonmultiple_not_rejected :
    ((0 : Int), (12 : Int)) ∈ traverse 12 8 true 96 initCursor ∧
    traverse 12 8 true 96 initCursor ≠ [] := by
  decide


/-! ### Basic facts about the quantizer -/

theorem lor_pack_aux :
    ∀ x < 32, ∀ y < 32, ∀ z < 32,
      (x <<< 10) ||| (y <<< 5) ||| z = (x <<< 10) + (y <<< 5) + z := by
  decide

theorem quantize_eq_arith (red green blue : Nat) (hr : red < 256)
    (hg : green < 256) (hb : blue < 256) :
    quantize red green blue = (blue / 8) * 1024 + (green / 8) * 32 + red / 8 := by
  unfold quantize
  simp only [Nat.shiftRight_eq_div_pow, Nat.shiftLeft_eq]
  norm_num
  omega

/-- C1: the quantizer returns `(b>>3)<<10 | (g>>3)<<5 | (r>>3)`, and the
result depends only on the top 5 bits of each channel: any perturbation of
the low 3 bits of red, green or blue leaves it unchanged. -/
theorem quantize_packing_and_top5_only (red green blue : Nat)
    (hr : red < 256) (hg : green < 256) (hb : blue < 256) :
    quantize red green blue = ((blue >>> 3) <<< 10) ||| ((green >>> 3) <<< 5) ||| (red >>> 3) ∧
    (∀ red1 green1 blue1, red1 < 256 → green1 < 256 → blue1 < 256 →
      red1 >>> 3 = red >>> 3 → green1 >>> 3 = green >>> 3 → blue1 >>> 3 = blue >>> 3 →
      quantize red1 green1 blue1 = quantize red green blue) := by
  have hkey : ∀ a b c : Nat, a < 256 → b < 256 → c < 256 →
      quantize a b c = (c / 8) * 1024 + (b / 8) * 32 + a / 8 :=
    fun a b c ha hb' hc => quantize_eq_arith a b c ha hb' hc
  constructor
  · rw [hkey red green blue hr hg hb]
    have h1 : red >>> 3 = red / 8 := by
      simp [Nat.shiftRight_eq_div_pow]
    have h2 : green >>> 3 = green / 8 := by
      simp [Nat.shiftRight_eq_div_pow]
    have h3 : blue >>> 3 = blue / 8 := by
      simp [Nat.shiftRight_eq_div_pow]
    have hb5 : blue / 8 < 32 := by omega
    have hg5 : green / 8 < 32 := by omega
    have hr5 : red / 8 < 32 := by omega
    rw [h1, h2, h3, lor_pack_aux _ hb5 _ hg5 _ hr5]
    simp only [Nat.shiftLeft_eq]
  · intro red1 green1 blue1 hr1 hg1 hb1 er eg eb
    rw [hkey red1 green1 blue1 hr1 hg1 hb1, hkey red green blue hr hg hb]
    have h1 : red1 / 8 = red / 8 := by
      simpa [Nat.shiftRight_eq_div_pow] using er
    have h2 : green1 / 8 = green / 8 := by
      simpa [Nat.shiftRight_eq_div_pow] using eg
    have h3 : blue1 / 8 = blue / 8 := by
      simpa [Nat.shiftRight_eq_div_pow] using eb
    rw [h1, h2, h3]

/-- Witness for C1 at a concrete input: red = (255,0,0) packs to 0x001F and
perturbing low bits (248,7,7) gives the same value. -/
theorem quantize_packing_and_top5_only_witness :
    quantize 255 0 0 = ((0 >>> 3) <<< 10) ||| ((0 >>> 3) <<< 5) ||| (255 >>> 3) ∧
    quantize 248 7 7 = quantize 255 0 0 := by
  refine ⟨(quantize_packing_and_top5_only 255 0 0 (by decide) (by decide) (by decide)).1, ?_⟩
  exact (quantize_packing_and_top5_only 255 0 0 (by decide) (by decide)
    (by decide)).2 248 7 7 (by decide) (by decide) (by decide)
    (by decide) (by decide) (by decide)

/-! ### The stream emitter (C7)

`png2gba` (lines 247-317) prints the pixel stream and, in indexed mode, the
palette table.  The source function references the undefined identifiers
`image`, `color_palette` and `palette_size` (the build defect the spec
notes in §9); the models below bind the image pixels and the palette state
explicitly, keeping every `fprintf` of the source in order. -/

/-- One hex digit as printed by `printf %X`. -/
def hexDigitU (n : Nat) : Char :=
  if n < 10 then Char.ofNat (48 + n) else Char.ofNat (55 + n)

/-- One hex digit as printed by `printf %x`. -/
def hexDigitL (n : Nat) : Char :=
  if n < 10 then Char.ofNat (48 + n) else Char.ofNat (87 + n)

/-- `printf "0x%04X"` for values below 2^16 (every quantized color is). -/
def hex4U (n : Nat) : String :=
  ⟨['0', 'x', hexDigitU (n / 4096 % 16), hexDigitU (n / 256 % 16),
    hexDigitU (n / 16 % 16), hexDigitU (n % 16)]⟩

/-- `printf "0x%02X"` for values below 2^8 (every palette index is). -/
def hex2U (n : Nat) : String :=
  ⟨['0', 'x', hexDigitU (n / 16 % 16), hexDigitU (n % 16)]⟩

/-- `printf "0x%04x"` (lowercase), used for the palette table. -/
def hex4L (n : Nat) : String :=
  ⟨['0', 'x', hexDigitL (n / 4096 % 16), hexDigitL (n / 256 % 16),
    hexDigitL (n / 16 % 16), hexDigitL (n % 16)]⟩

/-- The pixel loop of `png2gba` (lines 252-288): for each pixel quantize it
(lines 261-264); print four leading spaces when starting a line (267-269);
print either `0x%04X color` or the palette index as `0x%02X` (272-278);
print `", "` (280); and after the 8th value on a line (`TILE_SIZE`) print a
newline and reset the per-line counter (283-287).  Palette overflow inside
`insert_palette` aborts the run. -/
def pixelLoop (paletteMode : Bool) :
    List (Nat × Nat × Nat) → Palette → Nat → Except Unit (String × Palette × Nat)
  | [], pal, cnt => .ok ("", pal, cnt)
  | (red, green, blue) :: rest, pal, cnt =>
    let color := quantize red green blue
    if paletteMode then
      match insert_palette color pal with
      | .error e => .error e
      | .ok (idx, pal1) =>
        match pixelLoop paletteMode rest pal1 (if cnt + 1 ≥ 8 then 0 else cnt + 1) with
        | .error e => .error e
        | .ok (s, palF, cntF) =>
          .ok ((if cnt = 0 then "    " else "") ++ (hex2U idx ++ ", ") ++
            (if cnt + 1 ≥ 8 then "\n" else "") ++ s, palF, cntF)
    else
      match pixelLoop paletteMode rest pal (if cnt + 1 ≥ 8 then 0 else cnt + 1) with
      | .error e => .error e
      | .ok (s, palF, cntF) =>
        .ok ((if cnt = 0 then "    " else "") ++ (hex4U color ++ ", ") ++
          (if cnt + 1 ≥ 8 then "\n" else "") ++ s, palF, cntF)

/-- The palette-table loop of `png2gba` (lines 295-311): for each index
`i < PALETTE_MAX = 256` print the lead-in when starting a line, the entry
as `0x%04x`, a `", "` separator unless `i` is the last index 255, and a
newline after the 9th value of a line (`colors_this_line > 8`). -/
def paletteLoopAux (colors : Nat → Nat) : List Nat → Nat → String
  | [], _ => ""
  | i :: rest, cnt =>
    (if cnt = 0 then "    " else "") ++
      (hex4L (colors i) ++ (if i ≠ 255 then ", " else "")) ++
      (if cnt + 1 > 8 then "\n" ++ paletteLoopAux colors rest 0
       else paletteLoopAux colors rest (cnt + 1))

/-- The palette table printed by `png2gba` lines 296-311: always all
`PALETTE_MAX = 256` slots, whatever the palette's `max` is. -/
def paletteTable (colors : Nat → Nat) : String :=
  paletteLoopAux colors (List.range 256) 0

/-! #### A generic grouped-line renderer and its closed form -/

/-- The common printing skeleton of both loops: a token per value, four
leading spaces at the start of a line, a newline (and counter reset) once a
line holds `limit` values. -/
def renderLoop (limit : Nat) (tok : α → String) : List α → Nat → String × Nat
  | [], cnt => ("", cnt)
  | v :: rest, cnt =>
    if cnt + 1 ≥ limit then
      ((if cnt = 0 then "    " else "") ++ tok v ++ "\n" ++
        (renderLoop limit tok rest 0).1, (renderLoop limit tok rest 0).2)
    else
      ((if cnt = 0 then "    " else "") ++ tok v ++
        (renderLoop limit tok rest (cnt + 1)).1, (renderLoop limit tok rest (cnt + 1)).2)

def strJoin : List String → String
  | [] => ""
  | s :: rest => s ++ strJoin rest

/-- Chunks of `u + 1` consecutive values. -/
def chunks (u : Nat) : List α → List (List α)
  | [] => []
  | v :: t => (v :: t).take (u + 1) :: chunks u ((v :: t).drop (u + 1))
termination_by l => l.length
decreasing_by
  simp only [List.length_drop, List.length_cons]
  omega

/-- What the spec's §4.4 grouping policy says the output looks like: the
values in lines of `u + 1`, each line indented four spaces, every full line
ended by a newline, a final partial line left open. -/
def specRender (u : Nat) (tok : α → String) (vals : List α) : String :=
  strJoin ((chunks u vals).map fun line =>
    "    " ++ strJoin (line.map tok) ++ (if line.length = u + 1 then "\n" else ""))

theorem renderLoop_mid (u : Nat) (tok : α → String) :
    ∀ (l rest : List α) (cnt : Nat), 0 < cnt → cnt + l.length < u + 1 →
      renderLoop (u + 1) tok (l ++ rest) cnt =
        (strJoin (l.map tok) ++ (renderLoop (u + 1) tok rest (cnt + l.length)).1,
         (renderLoop (u + 1) tok rest (cnt + l.length)).2) := by
  intro l
  induction l with
  | nil =>
    intro rest cnt h0 hlt
    simp [strJoin]
  | cons v t ih =>
    intro rest cnt h0 hlt
    have hlen : (v :: t).length = t.length + 1 := rfl
    show renderLoop (u + 1) tok (v :: (t ++ rest)) cnt = _
    rw [renderLoop, if_neg (by rw [hlen] at hlt; omega), if_neg (by omega)]
    rw [ih rest (cnt + 1) (by omega) (by rw [hlen] at hlt; omega)]
    rw [hlen]
    have hcnt : cnt + 1 + t.length = cnt + (t.length + 1) := by omega
    rw [hcnt]
    simp [strJoin, String.append_assoc]

theorem renderLoop_full (u : Nat) (tok : α → String) :
    ∀ (l rest : List α) (cnt : Nat), 0 < cnt → 0 < l.length → cnt + l.length = u + 1 →
      renderLoop (u + 1) tok (l ++ rest) cnt =
        (strJoin (l.map tok) ++ "\n" ++ (renderLoop (u + 1) tok rest 0).1,
         (renderLoop (u + 1) tok rest 0).2) := by
  intro l
  induction l with
  | nil => intro rest cnt h0 hpos hsum; simp at hpos
  | cons v t ih =>
    intro rest cnt h0 hpos hsum
    have hlen : (v :: t).length = t.length + 1 := rfl
    rw [hlen] at hsum
    by_cases ht : t = []
    · subst ht
      show renderLoop (u + 1) tok (v :: rest) cnt = _
      rw [renderLoop, if_pos (by simp at hsum; omega), if_neg (by omega)]
      simp [strJoin, String.append_assoc]
    · have htlen : 0 < t.length := List.length_pos.mpr ht
      show renderLoop (u + 1) tok (v :: (t ++ rest)) cnt = _
      rw [renderLoop, if_neg (by omega), if_neg (by omega)]
      rw [ih rest (cnt + 1) (by omega) htlen (by omega)]
      simp [strJoin, String.append_assoc]

theorem renderLoop_line0 (u : Nat) (tok : α → String) :
    ∀ (l rest : List α), l.length = u + 1 →
      renderLoop (u + 1) tok (l ++ rest) 0 =
        ("    " ++ strJoin (l.map tok) ++ "\n" ++ (renderLoop (u + 1) tok rest 0).1,
         (renderLoop (u + 1) tok rest 0).2) := by
  intro l rest hl
  cases l with
  | nil => simp at hl
  | cons v t =>
    have hlen : (v :: t).length = t.length + 1 := rfl
    rw [hlen] at hl
    by_cases ht : t = []
    · subst ht
      have hu : u = 0 := by simp at hl; omega
      subst hu
      show renderLoop (0 + 1) tok (v :: rest) 0 = _
      rw [renderLoop, if_pos (by omega)]
      simp [strJoin, String.append_assoc]
    · have htlen : 0 < t.length := List.length_pos.mpr ht
      show renderLoop (u + 1) tok (v :: (t ++ rest)) 0 = _
      rw [renderLoop, if_neg (by omega)]
      rw [renderLoop_full u tok t rest 1 (by omega) htlen (by omega)]
      simp [strJoin, String.append_assoc]

theorem renderLoop_partial0 (u : Nat) (tok : α → String) :
    ∀ (l : List α), 0 < l.length → l.length < u + 1 →
      renderLoop (u + 1) tok l 0 = ("    " ++ strJoin (l.map tok), l.length) := by
  intro l hpos hlt
  cases l with
  | nil => simp at hpos
  | cons v t =>
    have hlen : (v :: t).length = t.length + 1 := rfl
    rw [hlen] at hlt ⊢
    by_cases ht : t = []
    · subst ht
      show renderLoop (u + 1) tok [v] 0 = _
      rw [renderLoop, if_neg (by simp at hlt; omega)]
      simp [renderLoop, strJoin, String.append_assoc]
    · have htlen : 0 < t.length := List.length_pos.mpr ht
      show renderLoop (u + 1) tok (v :: t) 0 = _
      rw [renderLoop, if_neg (by omega)]
      rw [show t = t ++ ([] : List α) from by simp]
      rw [renderLoop_mid u tok t [] 1 (by omega) (by omega)]
      simp [renderLoop, strJoin, String.append_assoc]
      omega


/-- The printing skeleton started at column 0 renders exactly the spec's
grouped form, and ends with the line counter at `length % limit`. -/
theorem renderLoop_closed (u : Nat) (tok : α → String) :
    ∀ (n : Nat) (vals : List α), vals.length = n →
      renderLoop (u + 1) tok vals 0 =
        (specRender u tok vals, vals.length % (u + 1)) := by
  intro n
  induction n using Nat.strong_induction_on with
  | _ n ih =>
    intro vals hlen
    cases vals with
    | nil => simp [renderLoop, specRender, chunks, strJoin]
    | cons v t =>
      have hlenc : (v :: t).length = t.length + 1 := rfl
      by_cases hge : u + 1 ≤ t.length + 1
      · have hsplit : v :: t = (v :: t).take (u + 1) ++ (v :: t).drop (u + 1) :=
          (List.take_append_drop _ _).symm
        have hT : ((v :: t).take (u + 1)).length = u + 1 := by
          rw [List.length_take]
          simp only [List.length_cons]
          omega
        have hD : ((v :: t).drop (u + 1)).length = t.length + 1 - (u + 1) := by
          rw [List.length_drop, hlenc]
        have hch : chunks u (v :: t) =
            (v :: t).take (u + 1) :: chunks u ((v :: t).drop (u + 1)) := by
          rw [chunks]
        conv_lhs => rw [hsplit]
        rw [renderLoop_line0 u tok _ _ hT]
        rw [ih ((v :: t).drop (u + 1)).length (by rw [hD]; omega) _ rfl]
        have hmod : ((v :: t).drop (u + 1)).length % (u + 1) =
            (v :: t).length % (u + 1) := by
          rw [hD, hlenc, Nat.mod_eq_sub_mod hge]
        rw [hmod]
        simp only [specRender, hch, List.map_cons, strJoin, hT, if_pos,
          String.append_assoc]
      · have hpos : 0 < (v :: t).length := by simp
        rw [renderLoop_partial0 u tok (v :: t) hpos (by rw [hlenc]; omega)]
        have htake : (v :: t).take (u + 1) = v :: t :=
          List.take_of_length_le (by rw [hlenc]; omega)
        have hdrop : (v :: t).drop (u + 1) = [] :=
          List.drop_eq_nil_of_le (by rw [hlenc]; omega)
        have hch : chunks u (v :: t) = [v :: t] := by
          rw [chunks, htake, hdrop]
          simp [chunks]
        have hne : ¬((v :: t).length = u + 1) := by rw [hlenc]; omega
        rw [specRender, hch]
        simp only [List.map_cons, List.map_nil, strJoin, if_neg hne]
        rw [Nat.mod_eq_of_lt (by rw [hlenc]; omega)]
        simp [String.append_assoc]

/-- A pixel triple rendered for direct-color mode: `0x%04X` plus the
separator. -/
def colorTok (px : Nat × Nat × Nat) : String := hex4U (quantizeTriple px) ++ ", "

/-- A palette index rendered for indexed mode: `0x%02X` plus the
separator. -/
def indexTok (i : Nat) : String := hex2U i ++ ", "

/-- A palette slot rendered for the palette table: `0x%04x`, with the
separator on all but the last slot. -/
def palTok (colors : Nat → Nat) (i : Nat) : String :=
  hex4L (colors i) ++ (if i ≠ 255 then ", " else "")

/-- The direct-color pixel loop is the printing skeleton over the
quantized colors; the palette never changes. -/
theorem pixelLoop_direct (pixels : List (Nat × Nat × Nat)) :
    ∀ (pal : Palette) (cnt : Nat),
      pixelLoop false pixels pal cnt =
        .ok ((renderLoop 8 colorTok pixels cnt).1, pal,
             (renderLoop 8 colorTok pixels cnt).2) := by
  induction pixels with
  | nil => intro pal cnt; rfl
  | cons px rest ih =>
    intro pal cnt
    obtain ⟨red, green, blue⟩ := px
    by_cases hc : cnt + 1 ≥ 8
    · simp only [pixelLoop, renderLoop, if_pos hc, ih, Bool.false_eq_true, if_false,
        colorTok, quantizeTriple, String.append_assoc, String.empty_append,
        String.append_empty]
    · simp only [pixelLoop, renderLoop, if_neg hc, ih, Bool.false_eq_true, if_false,
        colorTok, quantizeTriple, String.append_assoc, String.empty_append,
        String.append_empty]

/-- The indexed pixel loop is the printing skeleton over the palette
indices that `indicesOf` assigns, with the same final palette. -/
theorem pixelLoop_indexed (pixels : List (Nat × Nat × Nat)) :
    ∀ (pal : Palette) (cnt : Nat) (is : List Nat) (pF : Palette),
      indicesOf pal (pixels.map quantizeTriple) = .ok (is, pF) →
      pixelLoop true pixels pal cnt =
        .ok ((renderLoop 8 indexTok is cnt).1, pF, (renderLoop 8 indexTok is cnt).2) := by
  induction pixels with
  | nil =>
    intro pal cnt is pF h
    simp only [List.map_nil, indicesOf, Except.ok.injEq, Prod.mk.injEq] at h
    obtain ⟨rfl, rfl⟩ := h
    rfl
  | cons px rest ih =>
    intro pal cnt is pF h
    obtain ⟨red, green, blue⟩ := px
    simp only [List.map_cons, indicesOf, quantizeTriple] at h
    cases hins : insert_palette (quantize red green blue) pal with
    | error e => simp only [hins] at h; exact absurd h (by simp)
    | ok v =>
      obtain ⟨i, p1⟩ := v
      simp only [hins] at h
      cases hrec : indicesOf p1 (rest.map quantizeTriple) with
      | error e => simp only [hrec] at h; exact absurd h (by simp)
      | ok w =>
        obtain ⟨is1, pF1⟩ := w
        simp only [hrec, Except.ok.injEq, Prod.mk.injEq] at h
        obtain ⟨rfl, rfl⟩ := h
        by_cases hc : cnt + 1 ≥ 8
        · simp only [pixelLoop, if_pos hc, hins, ih p1 0 is1 pF1 hrec, renderLoop,
            indexTok, String.append_assoc, String.empty_append, String.append_empty,
            if_true]
        · simp only [pixelLoop, if_neg hc, hins, ih p1 (cnt + 1) is1 pF1 hrec,
            renderLoop, indexTok, String.append_assoc, String.empty_append,
            String.append_empty, if_true]

/-- The palette-table loop is the printing skeleton with a 9-per-line
limit. -/
theorem paletteLoopAux_render (colors : Nat → Nat) :
    ∀ (l : List Nat) (cnt : Nat),
      paletteLoopAux colors l cnt = (renderLoop 9 (palTok colors) l cnt).1 := by
  intro l
  induction l with
  | nil => intro cnt; rfl
  | cons i t ih =>
    intro cnt
    by_cases hc : cnt + 1 ≥ 9
    · have hgt : cnt + 1 > 8 := hc
      simp only [paletteLoopAux, renderLoop, if_pos hc, if_pos hgt, ih, palTok,
        String.append_assoc, String.empty_append, String.append_empty]
    · have hgt : ¬(cnt + 1 > 8) := hc
      simp only [paletteLoopAux, renderLoop, if_neg hc, if_neg hgt, ih, palTok,
        String.append_assoc, String.empty_append, String.append_empty]

set_option maxRecDepth 100000 in
/-- C7 counterexample: in a 16-color indexed run the emitted palette table
does NOT contain exactly `max = 16` slots.  The loop at line 298 runs to
`PALETTE_MAX = 256` regardless of `palette.max`, so the table of a
16-color palette (here holding the default colorkey) carries 256 `0x..`
literals, not 16. -/
theorem palette_table_not_max_slots :
    (paletteTable (fun j => if j = 0 then 31775 else 0)).data.count 'x' = 256 ∧
    ¬((paletteTable (fun j => if j = 0 then 31775 else 0)).data.count 'x' = 16) := by
  constructor
  · decide
  · decide

/-- C7 (amended): the emitter renders the pixel stream 8 values per line,
direct-color values as 4-hex-digit `0x%04X` literals and palette indices
as 2-hex-digit `0x%02X` literals, each line indented and full lines ended
by a newline; in indexed mode the palette table that follows holds all
256 (`PALETTE_MAX`) slots — regardless of the chosen `max` — at 9 values
per line, with every slot never written by an insertion still zero. -/
theorem emitter_grouped_format :
    (∀ (pixels : List (Nat × Nat × Nat)) (pal : Palette),
      pixelLoop false pixels pal 0 =
        .ok (specRender 7 colorTok pixels, pal, pixels.length % 8)) ∧
    (∀ (pixels : List (Nat × Nat × Nat)) (pal : Palette) (is : List Nat) (pF : Palette),
      indicesOf pal (pixels.map quantizeTriple) = .ok (is, pF) →
      pixelLoop true pixels pal 0 =
        .ok (specRender 7 indexTok is, pF, is.length % 8)) ∧
    (∀ colors : Nat → Nat,
      paletteTable colors = specRender 8 (palTok colors) (List.range 256)) ∧
    (∀ (req : Nat) (cs : List Nat) (is : List Nat) (pF : Palette),
      indicesOf (freshPalette req) cs = .ok (is, pF) →
      ∀ j, pF.used ≤ j → pF.colors j = 0) := by
  refine ⟨?_, ?_, ?_, ?_⟩
  · intro pixels pal
    have hcl := renderLoop_closed 7 colorTok pixels.length pixels rfl
    norm_num at hcl
    rw [pixelLoop_direct pixels pal 0, hcl]
  · intro pixels pal is pF h
    have hcl := renderLoop_closed 7 indexTok is.length is rfl
    norm_num at hcl
    rw [pixelLoop_indexed pixels pal 0 is pF h, hcl]
  · intro colors
    have hcl := renderLoop_closed 8 (palTok colors) (List.range 256).length
      (List.range 256) rfl
    norm_num at hcl
    unfold paletteTable
    rw [paletteLoopAux_render colors (List.range 256) 0, hcl]
  · intro req cs is pF h j hj
    have hmax : (freshPalette req).max < 256 := by
      show req % 256 < 256
      omega
    exact ((indicesOf_frame cs (freshPalette req) is pF hmax h).2.2.2 j hj).trans rfl

/-- Witness for C7 (amended) on a one-pixel indexed run against a palette
already holding the colorkey. -/
theorem emitter_grouped_format_witness :
    pixelLoop true [(255, 0, 0)] ⟨fun j => if j = 0 then 31775 else 0, 1, 16⟩ 0 =
      .ok (specRender 7 indexTok [1],
        ⟨fun j => if j = 1 then 31 else if j = 0 then 31775 else 0, 2, 16⟩,
        [1].length % 8) :=
  emitter_grouped_format.2.1 [(255, 0, 0)]
    ⟨fun j => if j = 0 then 31775 else 0, 1, 16⟩ [1]
    ⟨fun j => if j = 1 then 31 else if j = 0 then 31775 else 0, 2, 16⟩ rfl

end Png2gba
